import Mathlib

/-!
Shallow embedding of `tensorboard/plugins/pr_curve/pr_curves_plugin.py`
(class `PrCurvesPlugin`).

Modelling decisions:
* Python `dict`s (with their insertion-order iteration and
  overwrite-on-existing-key update semantics) are association lists
  `List (String × α)`; `dictInsert` is `d[k] = v`.
* The external event multiplexer (`self._multiplexer`) is a `Multiplexer`
  structure: `PluginRunToTagToContent` is the (plugin-scoped) run → tag →
  content mapping the store returns for this plugin's name, and `Tensors`
  is the (run, tag) event lookup, `none` modelling the `KeyError` the
  Python store raises for an unknown pair.
* Python exceptions are `Except`/`Option` results: `pr_curves_impl`
  raises `ValueError` → `Except String`; an uncaught `KeyError` escaping
  `available_steps_impl` → `Option`.
* Numeric payloads (float wall times, float tensor entries) are only ever
  copied, never computed with, so their carrier is modelled as `Int`.
* `tf.make_ndarray` decodes a tensor proto into an array; the payload is
  modelled already decoded as `List (List Int)` (first axis = rows), so
  the decode step is the identity.
-/

namespace PrCurves

abbrev Run := String
abbrev Tag := String

/-- Modelled from the spec: the `metadata` module of this plugin is not in
the sources; per the spec the tensor payload has "a fixed first-axis
layout: index 0 = precision vector, index 1 = recall vector". -/
def PRECISION_INDEX : Nat := 0

/-- Modelled from the spec: reserved recall row index (first-axis index 1). -/
def RECALL_INDEX : Nat := 1

/-- External, read-only event record: `wall_time`, `step`, and the decoded
tensor payload (rows of numeric values). -/
structure TensorEvent where
  wall_time : Int
  step : Int
  tensor_proto : List (List Int)
deriving DecidableEq, Repr

/-- Response-only record built by `_process_tensor_event`. -/
structure CurveEntry where
  wall_time : Int
  step : Int
  precision : List Int
  «recall» : List Int
deriving DecidableEq, Repr

/-- The external event store handle (`self._multiplexer`). -/
structure Multiplexer where
  PluginRunToTagToContent : List (Run × List (Tag × String))
  Tensors : Run → Tag → Option (List TensorEvent)

/-- Python `d[k] = v` on a dict rendered as an association list: an
existing key keeps its position and gets the new value, a fresh key is
appended. -/
def dictInsert {α : Type} (d : List (String × α)) (k : String) (v : α) :
    List (String × α) :=
  if d.any (fun p => p.1 == k) then
    d.map (fun p => if p.1 == k then (k, v) else p)
  else
    d ++ [(k, v)]

/-- `tf.make_ndarray(event.tensor_proto)`: the payload is modelled already
decoded, so this is the identity on the row list. -/
def make_ndarray (tensor_proto : List (List Int)) : List (List Int) :=
  tensor_proto

/-- Python `'No PR curves could be fetched for run %r and tag %r' % (run, tag)`
(`%r` of a plain string wraps it in single quotes, written `\x27` here;
escaping of quote characters inside the strings themselves is not
modelled). -/
def prCurvesErrorMessage (run : Run) (tag : Tag) : String :=
  "No PR curves could be fetched for run \x27" ++ run ++ "\x27 and tag \x27"
    ++ tag ++ "\x27"

/-- Row extraction `data_array[i].tolist()`; a missing row would raise in
Python and is out of the claims' scope, rendered as the empty row. -/
def rowAt (data_array : List (List Int)) (i : Nat) : List Int :=
  data_array.getD i []

/-- `PrCurvesPlugin._process_tensor_event`. -/
def _process_tensor_event (event : TensorEvent) : CurveEntry :=
  let data_array := make_ndarray event.tensor_proto
  { wall_time := event.wall_time
    step := event.step
    precision := rowAt data_array PRECISION_INDEX
    «recall» := rowAt data_array RECALL_INDEX }

/-- The `for run in runs` loop of `pr_curves_impl`, threading the
`response_mapping` dict; a failed `Tensors` lookup (`KeyError`) aborts the
whole loop with the `ValueError` message. -/
def prCurvesLoop (m : Multiplexer) (tag : Tag) :
    List Run → List (Run × List CurveEntry) →
    Except String (List (Run × List CurveEntry))
  | [], response_mapping => .ok response_mapping
  | run :: rest, response_mapping =>
    match m.Tensors run tag with
    | none => .error (prCurvesErrorMessage run tag)
    | some tensor_events =>
      prCurvesLoop m tag rest
        (dictInsert response_mapping run (tensor_events.map _process_tensor_event))

/-- `PrCurvesPlugin.pr_curves_impl`. -/
def pr_curves_impl (m : Multiplexer) (runs : List Run) (tag : Tag) :
    Except String (List (Run × List CurveEntry)) :=
  prCurvesLoop m tag runs []

/-- `PrCurvesPlugin.tags_impl`: maps each run of
`PluginRunToTagToContent` to `list(tag_to_content.keys())`. -/
def tags_impl (m : Multiplexer) : List (Run × List Tag) :=
  m.PluginRunToTagToContent.map (fun p => (p.1, p.2.map Prod.fst))

/-- The `for run, tag_to_content in all_runs.items()` loop of
`available_steps_impl`; an empty tag dict is skipped, otherwise the run's
first tag (store iteration order) is sampled; a `KeyError` escaping
`Tensors` here is uncaught, modelled as `none` for the whole call. -/
def availableStepsLoop (m : Multiplexer) :
    List (Run × List (Tag × String)) → List (Run × List Int) →
    Option (List (Run × List Int))
  | [], response => some response
  | (_, []) :: rest, response => availableStepsLoop m rest response
  | (run, (firstTag, _) :: _) :: rest, response =>
    match m.Tensors run firstTag with
    | none => none
    | some tensor_events =>
      availableStepsLoop m rest
        (dictInsert response run (tensor_events.map TensorEvent.step))

/-- `PrCurvesPlugin.available_steps_impl`. -/
def available_steps_impl (m : Multiplexer) : Option (List (Run × List Int)) :=
  availableStepsLoop m m.PluginRunToTagToContent []

/-- `PrCurvesPlugin.is_active`: `False` without a multiplexer, else
`any(six.itervalues(all_runs))` — some run has a truthy (nonempty) tag
dict. -/
def is_active (mOpt : Option Multiplexer) : Bool :=
  match mOpt with
  | none => false
  | some m => m.PluginRunToTagToContent.any (fun p => !p.2.isEmpty)

/-- A request to the `/pr_curves` route: `request.args.getlist('run')`
(absent parameter gives the empty list) and `request.args.get('tag')`
(absent parameter gives `None`). -/
structure Request where
  runArgs : List String
  tagArg : Option String
deriving DecidableEq, Repr

/-- The `/pr_curves` route's response: either a 400 plain-text error body
or the 200 JSON run → curve-entries mapping. -/
inductive PrCurvesResponse where
  | badRequest (body : String)
  | ok (body : List (Run × List CurveEntry))
deriving DecidableEq, Repr

/-- `PrCurvesPlugin.pr_curves_route`: validates `run` then `tag`
(Python truthiness: `None` and the empty string both fail `if not tag:`),
then delegates to `pr_curves_impl`, converting its `ValueError` into a
400 response. -/
def pr_curves_route (m : Multiplexer) (request : Request) : PrCurvesResponse :=
  let runs := request.runArgs
  if runs.isEmpty then
    .badRequest "No runs provided when fetching PR curve data"
  else
    match request.tagArg with
    | none => .badRequest "No tag provided when fetching PR curve data"
    | some tag =>
      if tag = "" then
        .badRequest "No tag provided when fetching PR curve data"
      else
        match pr_curves_impl m runs tag with
        | .error e => .badRequest e
        | .ok response => .ok response

/-- The sequence of `Tensors` store queries `pr_curves_impl` issues on a
given run list, in order: one query per processed run, and a failing query
is the last one (the exception aborts the loop, so nothing is retried). -/
def prCurvesQueries (m : Multiplexer) (tag : Tag) : List Run → List (Run × Tag)
  | [] => []
  | run :: rest =>
    (run, tag) ::
      match m.Tensors run tag with
      | none => []
      | some _ => prCurvesQueries m tag rest

/-- The sequence of `Tensors` store queries `available_steps_impl` issues:
one per run with a nonempty tag dict, a failing query last. -/
def availableStepsQueries (m : Multiplexer) :
    List (Run × List (Tag × String)) → List (Run × Tag)
  | [] => []
  | (_, []) :: rest => availableStepsQueries m rest
  | (run, (firstTag, _) :: _) :: rest =>
    (run, firstTag) ::
      match m.Tensors run firstTag with
      | none => []
      | some _ => availableStepsQueries m rest

/-- The `Tensors` queries the `/pr_curves` route issues: none when
parameter validation fails, `pr_curves_impl`'s queries otherwise. -/
def prCurvesRouteQueries (m : Multiplexer) (request : Request) :
    List (Run × Tag) :=
  if request.runArgs.isEmpty then []
  else
    match request.tagArg with
    | none => []
    | some tag =>
      if tag = "" then [] else prCurvesQueries m tag request.runArgs

/-- A sample event (step 0) with a 3-threshold payload. -/
def evA : TensorEvent :=
  { wall_time := 10, step := 0, tensor_proto := [[1, 2, 3], [4, 5, 6]] }

/-- A sample event (step 1) with a 3-threshold payload. -/
def evB : TensorEvent :=
  { wall_time := 11, step := 1, tensor_proto := [[7, 8, 9], [3, 2, 1]] }

/-- A sample store: run `colors` with one tag holding two events, and a
run `empty_run` with no relevant tags. -/
def egStore : Multiplexer where
  PluginRunToTagToContent :=
    [("colors", [("blue/pr_curves", "content1")]), ("empty_run", [])]
  Tensors := fun run tag =>
    if run = "colors" ∧ tag = "blue/pr_curves" then some [evA, evB] else none

/-- `egStore` with different per-tag summary content (the stand-in for a
tag's display metadata) but identical keys and events. -/
def egStoreContent2 : Multiplexer where
  PluginRunToTagToContent :=
    [("colors", [("blue/pr_curves", "content2")]), ("empty_run", [])]
  Tensors := fun run tag =>
    if run = "colors" ∧ tag = "blue/pr_curves" then some [evA, evB] else none

/-- `egStore`'s run-to-tags view paired with an event lookup that always
fails: used to show which operations never consult the event lookup. -/
def egStoreAltTensors : Multiplexer where
  PluginRunToTagToContent :=
    [("colors", [("blue/pr_curves", "content1")]), ("empty_run", [])]
  Tensors := fun _ _ => none

/-- A store with no runs at all. -/
def emptyStore : Multiplexer where
  PluginRunToTagToContent := []
  Tensors := fun _ _ => none

/-! ### Helper lemmas on `dictInsert` and the loops -/

theorem any_key_eq_false {α : Type} {d : List (String × α)} {k : String}
    (h : k ∉ d.map Prod.fst) : (d.any fun p => p.1 == k) = false := by
  rw [List.any_eq_false]
  intro p hp
  simp only [beq_iff_eq]
  intro hpk
  exact h (List.mem_map.mpr ⟨p, hp, hpk⟩)

theorem mem_dictInsert {α : Type} {d : List (String × α)} {k : String} {v : α}
    {p : String × α} :
    p ∈ dictInsert d k v ↔ (p ∈ d ∧ p.1 ≠ k) ∨ p = (k, v) := by
  unfold dictInsert
  split_ifs with h
  · rw [List.any_eq_true] at h
    obtain ⟨q, hq, hqk⟩ := h
    rw [beq_iff_eq] at hqk
    simp only [List.mem_map]
    constructor
    · rintro ⟨a, ha, rfl⟩
      by_cases hak : a.1 = k
      · simp [hak]
      · have hakb : (a.1 == k) = false := by simpa using hak
        simp only [hakb, Bool.false_eq_true, if_false]
        exact Or.inl ⟨ha, hak⟩
    · rintro (⟨hp, hne⟩ | rfl)
      · have hpb : (p.1 == k) = false := by simpa using hne
        exact ⟨p, hp, by simp [hpb]⟩
      · exact ⟨q, hq, by simp [hqk]⟩
  · rw [Bool.not_eq_true, List.any_eq_false] at h
    simp only [List.mem_append, List.mem_singleton]
    constructor
    · rintro (hp | rfl)
      · refine Or.inl ⟨hp, fun hk => ?_⟩
        have := h p hp
        simp [hk] at this
      · exact Or.inr rfl
    · rintro (⟨hp, _⟩ | rfl)
      · exact Or.inl hp
      · exact Or.inr rfl

theorem keys_dictInsert_mem {α : Type} {d : List (String × α)} {k r : String}
    {v : α} :
    r ∈ (dictInsert d k v).map Prod.fst ↔ r ∈ d.map Prod.fst ∨ r = k := by
  simp only [List.mem_map]
  constructor
  · rintro ⟨p, hp, rfl⟩
    rcases mem_dictInsert.mp hp with ⟨hd, _⟩ | rfl
    · exact Or.inl ⟨p, hd, rfl⟩
    · exact Or.inr rfl
  · rintro (⟨p, hp, rfl⟩ | rfl)
    · by_cases hpk : p.1 = k
      · exact ⟨(k, v), mem_dictInsert.mpr (Or.inr rfl), hpk.symm⟩
      · exact ⟨p, mem_dictInsert.mpr (Or.inl ⟨hp, hpk⟩), rfl⟩
    · exact ⟨(r, v), mem_dictInsert.mpr (Or.inr rfl), rfl⟩

theorem dictInsert_of_not_mem {α : Type} {d : List (String × α)} {k : String}
    {v : α} (h : k ∉ d.map Prod.fst) : dictInsert d k v = d ++ [(k, v)] := by
  unfold dictInsert
  rw [any_key_eq_false h]
  simp

theorem keys_dictInsert_nodup {α : Type} {d : List (String × α)} {k : String}
    {v : α} (h : (d.map Prod.fst).Nodup) :
    ((dictInsert d k v).map Prod.fst).Nodup := by
  unfold dictInsert
  split_ifs with hany
  · have : ((d.map fun q => if q.1 == k then (k, v) else q).map Prod.fst)
        = d.map Prod.fst := by
      rw [List.map_map]
      refine List.map_congr_left ?_
      intro a _
      by_cases hak : a.1 = k
      · simp [hak]
      · simp [if_neg (by simpa using hak)]
    rw [this]
    exact h
  · rw [Bool.not_eq_true, List.any_eq_false] at hany
    rw [List.map_append]
    rw [List.nodup_append]
    refine ⟨h, List.nodup_singleton k, ?_⟩
    intro x hx hx1
    simp only [List.map_cons, List.map_nil, List.mem_singleton] at hx1
    subst hx1
    obtain ⟨p, hp, hpk⟩ := List.mem_map.mp hx
    have := hany p hp
    simp [hpk] at this

theorem nodupKeys_value_eq {α : Type} {l : List (String × α)} {k : String}
    {a b : α} (h : (l.map Prod.fst).Nodup) (ha : (k, a) ∈ l)
    (hb : (k, b) ∈ l) : a = b := by
  induction l with
  | nil => cases ha
  | cons p rest ih =>
    rw [List.map_cons, List.nodup_cons] at h
    rcases List.mem_cons.mp ha with ha1 | ha2
    · rcases List.mem_cons.mp hb with hb1 | hb2
      · exact congrArg Prod.snd (ha1.trans hb1.symm)
      · exfalso
        apply h.1
        rw [← congrArg Prod.fst ha1]
        exact List.mem_map.mpr ⟨(k, b), hb2, rfl⟩
    · rcases List.mem_cons.mp hb with hb1 | hb2
      · exfalso
        apply h.1
        rw [← congrArg Prod.fst hb1]
        exact List.mem_map.mpr ⟨(k, a), ha2, rfl⟩
      · exact ih h.2 ha2 hb2

theorem prCurvesLoop_error {m : Multiplexer} {tag : Tag} :
    ∀ runs : List Run, (∃ r, r ∈ runs ∧ m.Tensors r tag = none) →
    ∃ r, r ∈ runs ∧ m.Tensors r tag = none ∧
      ∀ acc, prCurvesLoop m tag runs acc = .error (prCurvesErrorMessage r tag) := by
  intro runs
  induction runs with
  | nil => rintro ⟨r, hr, _⟩; cases hr
  | cons run rest ih =>
    rintro ⟨r, hr, hnone⟩
    cases htr : m.Tensors run tag with
    | none =>
      exact ⟨run, List.mem_cons_self run rest, htr,
        fun acc => by simp [prCurvesLoop, htr]⟩
    | some evs =>
      have hrest : ∃ s, s ∈ rest ∧ m.Tensors s tag = none := by
        rcases List.mem_cons.mp hr with rfl | hr2
        · rw [htr] at hnone; cases hnone
        · exact ⟨r, hr2, hnone⟩
      obtain ⟨s, hs, hsn, hloop⟩ := ih hrest
      exact ⟨s, List.mem_cons_of_mem run hs, hsn,
        fun acc => by simp [prCurvesLoop, htr, hloop]⟩

theorem prCurvesLoop_ok_mem {m : Multiplexer} {tag : Tag} :
    ∀ (runs : List Run) (acc res : List (Run × List CurveEntry)),
    prCurvesLoop m tag runs acc = .ok res →
    (∀ p, p ∈ acc → ∃ evs, m.Tensors p.1 tag = some evs ∧
        p.2 = evs.map _process_tensor_event) →
    ∀ p, p ∈ res → ∃ evs, m.Tensors p.1 tag = some evs ∧
        p.2 = evs.map _process_tensor_event := by
  intro runs
  induction runs with
  | nil =>
    intro acc res hres hacc
    rw [prCurvesLoop, Except.ok.injEq] at hres
    exact hres ▸ hacc
  | cons run rest ih =>
    intro acc res hres hacc
    rw [prCurvesLoop] at hres
    cases htr : m.Tensors run tag with
    | none => rw [htr] at hres; cases hres
    | some evs =>
      rw [htr] at hres
      refine ih _ res hres ?_
      intro p hp
      rcases mem_dictInsert.mp hp with ⟨hpacc, _⟩ | rfl
      · exact hacc p hpacc
      · exact ⟨evs, htr, rfl⟩

theorem prCurvesLoop_ok_keys {m : Multiplexer} {tag : Tag} :
    ∀ (runs : List Run) (acc res : List (Run × List CurveEntry)),
    prCurvesLoop m tag runs acc = .ok res →
    ∀ r, r ∈ res.map Prod.fst ↔ r ∈ acc.map Prod.fst ∨ r ∈ runs := by
  intro runs
  induction runs with
  | nil =>
    intro acc res hres r
    rw [prCurvesLoop, Except.ok.injEq] at hres
    subst hres
    simp
  | cons run rest ih =>
    intro acc res hres r
    rw [prCurvesLoop] at hres
    cases htr : m.Tensors run tag with
    | none => rw [htr] at hres; cases hres
    | some evs =>
      rw [htr] at hres
      rw [ih _ res hres r, keys_dictInsert_mem, List.mem_cons]
      tauto

theorem prCurvesLoop_ok_nodup {m : Multiplexer} {tag : Tag} :
    ∀ (runs : List Run) (acc res : List (Run × List CurveEntry)),
    prCurvesLoop m tag runs acc = .ok res →
    (acc.map Prod.fst).Nodup → (res.map Prod.fst).Nodup := by
  intro runs
  induction runs with
  | nil =>
    intro acc res hres hacc
    rw [prCurvesLoop, Except.ok.injEq] at hres
    exact hres ▸ hacc
  | cons run rest ih =>
    intro acc res hres hacc
    rw [prCurvesLoop] at hres
    cases htr : m.Tensors run tag with
    | none => rw [htr] at hres; cases hres
    | some evs =>
      rw [htr] at hres
      exact ih _ res hres (keys_dictInsert_nodup hacc)

theorem prCurvesLoop_ok_total {m : Multiplexer} {tag : Tag} :
    ∀ runs : List Run, (∀ r, r ∈ runs → m.Tensors r tag ≠ none) →
    ∀ acc, ∃ res, prCurvesLoop m tag runs acc = .ok res := by
  intro runs
  induction runs with
  | nil => exact fun _ acc => ⟨acc, rfl⟩
  | cons run rest ih =>
    intro hok acc
    cases htr : m.Tensors run tag with
    | none => exact absurd htr (hok run (List.mem_cons_self run rest))
    | some evs =>
      obtain ⟨res, hres⟩ :=
        ih (fun r hr => hok r (List.mem_cons_of_mem run hr))
          (dictInsert acc run (evs.map _process_tensor_event))
      exact ⟨res, by rw [prCurvesLoop, htr]; exact hres⟩

theorem availableStepsLoop_acc_mem {m : Multiplexer} :
    ∀ (l : List (Run × List (Tag × String))) (acc res : List (Run × List Int)),
    availableStepsLoop m l acc = some res →
    (acc.map Prod.fst ++ l.map Prod.fst).Nodup →
    ∀ p, p ∈ acc → p ∈ res := by
  intro l
  induction l with
  | nil =>
    intro acc res hres _ p hp
    rw [availableStepsLoop, Option.some.injEq] at hres
    exact hres ▸ hp
  | cons hd lrest ih =>
    obtain ⟨run0, ttc0⟩ := hd
    intro acc res hres hnd p hp
    cases ttc0 with
    | nil =>
      rw [availableStepsLoop] at hres
      refine ih acc res hres ?_ p hp
      have hsub : List.Sublist (acc.map Prod.fst ++ lrest.map Prod.fst)
          (acc.map Prod.fst
            ++ ((run0, ([] : List (Tag × String))) :: lrest).map Prod.fst) := by
        simp only [List.map_cons]
        exact List.Sublist.append_left
          (List.sublist_cons_self run0 (lrest.map Prod.fst)) _
      exact hnd.sublist hsub
    | cons tg0 ttcrest =>
      obtain ⟨tg, c0⟩ := tg0
      rw [availableStepsLoop] at hres
      cases htr : m.Tensors run0 tg with
      | none => rw [htr] at hres; cases hres
      | some evs =>
        rw [htr] at hres
        have hrun0 : run0 ∉ acc.map Prod.fst := by
          intro hmem
          rw [List.nodup_append] at hnd
          exact hnd.2.2 hmem (by simp)
        have hins : dictInsert acc run0 (evs.map TensorEvent.step)
            = acc ++ [(run0, evs.map TensorEvent.step)] :=
          dictInsert_of_not_mem hrun0
        refine ih _ res hres ?_ p ?_
        · rw [hins, List.map_append]
          have heq : (acc.map Prod.fst
                ++ ([(run0, evs.map TensorEvent.step)].map Prod.fst))
              ++ lrest.map Prod.fst
              = acc.map Prod.fst
                ++ ((run0, (tg, c0) :: ttcrest) :: lrest).map Prod.fst := by
            simp
          rw [heq]
          exact hnd
        · rw [hins]
          exact List.mem_append_left _ hp

theorem availableStepsLoop_mem {m : Multiplexer} :
    ∀ (l : List (Run × List (Tag × String))) (acc res : List (Run × List Int)),
    availableStepsLoop m l acc = some res →
    (acc.map Prod.fst ++ l.map Prod.fst).Nodup →
    ∀ run tg c rest2, (run, (tg, c) :: rest2) ∈ l →
    ∃ evs, m.Tensors run tg = some evs ∧
      (run, evs.map TensorEvent.step) ∈ res := by
  intro l
  induction l with
  | nil => intro acc res _ _ run tg c rest2 hmem; cases hmem
  | cons hd lrest ih =>
    obtain ⟨run0, ttc0⟩ := hd
    intro acc res hres hnd run tg c rest2 hmem
    cases ttc0 with
    | nil =>
      rw [availableStepsLoop] at hres
      rcases List.mem_cons.mp hmem with heq | hmem2
      · exact absurd (congrArg Prod.snd heq) (by simp)
      · refine ih acc res hres ?_ run tg c rest2 hmem2
        refine hnd.sublist ?_
        simp only [List.map_cons]
        exact List.Sublist.append_left
          (List.sublist_cons_self run0 (lrest.map Prod.fst)) _
    | cons tg0 ttcrest =>
      obtain ⟨tg1, c1⟩ := tg0
      rw [availableStepsLoop] at hres
      cases htr : m.Tensors run0 tg1 with
      | none => rw [htr] at hres; cases hres
      | some evs =>
        rw [htr] at hres
        have hrun0 : run0 ∉ acc.map Prod.fst := by
          intro hm
          rw [List.nodup_append] at hnd
          exact hnd.2.2 hm (by simp)
        have hins : dictInsert acc run0 (evs.map TensorEvent.step)
            = acc ++ [(run0, evs.map TensorEvent.step)] :=
          dictInsert_of_not_mem hrun0
        have hnd' : ((dictInsert acc run0 (evs.map TensorEvent.step)).map Prod.fst
            ++ lrest.map Prod.fst).Nodup := by
          rw [hins, List.map_append, List.append_assoc]
          simpa using hnd
        rcases List.mem_cons.mp hmem with heq | hmem2
        · injection heq with h1 h2
          injection h2 with h3 _
          injection h3 with h5 _
          subst h1; subst h5
          refine ⟨evs, htr, ?_⟩
          exact availableStepsLoop_acc_mem lrest _ res hres hnd' _
            (mem_dictInsert.mpr (Or.inr rfl))
        · exact ih _ res hres hnd' run tg c rest2 hmem2

theorem availableStepsLoop_keys {m : Multiplexer} :
    ∀ (l : List (Run × List (Tag × String))) (acc res : List (Run × List Int)),
    availableStepsLoop m l acc = some res →
    ∀ r, r ∈ res.map Prod.fst →
    r ∈ acc.map Prod.fst ∨ ∃ ttc, (r, ttc) ∈ l ∧ ttc ≠ [] := by
  intro l
  induction l with
  | nil =>
    intro acc res hres r hr
    rw [availableStepsLoop, Option.some.injEq] at hres
    exact Or.inl (hres ▸ hr)
  | cons hd lrest ih =>
    obtain ⟨run0, ttc0⟩ := hd
    intro acc res hres r hr
    cases ttc0 with
    | nil =>
      rw [availableStepsLoop] at hres
      rcases ih acc res hres r hr with h | ⟨ttc, hm, hne⟩
      · exact Or.inl h
      · exact Or.inr ⟨ttc, List.mem_cons_of_mem _ hm, hne⟩
    | cons tg0 ttcrest =>
      obtain ⟨tg1, c1⟩ := tg0
      rw [availableStepsLoop] at hres
      cases htr : m.Tensors run0 tg1 with
      | none => rw [htr] at hres; cases hres
      | some evs =>
        rw [htr] at hres
        rcases ih _ res hres r hr with h | ⟨ttc, hm, hne⟩
        · rcases keys_dictInsert_mem.mp h with h2 | rfl
          · exact Or.inl h2
          · exact Or.inr ⟨(tg1, c1) :: ttcrest,
              List.mem_cons_self (r, (tg1, c1) :: ttcrest) lrest, by simp⟩
        · exact Or.inr ⟨ttc, List.mem_cons_of_mem _ hm, hne⟩

theorem prCurvesQueries_count {m : Multiplexer} {tag : Tag} :
    ∀ (runs : List Run) (r : Run) (t : Tag),
    (prCurvesQueries m tag runs).count (r, t) ≤ runs.count r := by
  intro runs
  induction runs with
  | nil => intro r t; simp [prCurvesQueries]
  | cons run rest ih =>
    intro r t
    rw [prCurvesQueries]
    cases htr : m.Tensors run tag with
    | none =>
      simp only [htr, List.count_cons, List.count_nil, beq_iff_eq]
      split_ifs with h1 h2 <;> try omega
      exact absurd (congrArg Prod.fst h1) h2
    | some evs =>
      simp only [htr, List.count_cons, beq_iff_eq]
      have := ih r t
      split_ifs with h1 h2 <;> try omega
      exact absurd (congrArg Prod.fst h1) h2

theorem prCurvesQueries_stop {m : Multiplexer} {tag : Tag} {run : Run}
    (rest : List Run) (h : m.Tensors run tag = none) :
    prCurvesQueries m tag (run :: rest) = [(run, tag)] := by
  rw [prCurvesQueries, h]

theorem availableStepsQueries_count {m : Multiplexer} :
    ∀ (l : List (Run × List (Tag × String))) (r : Run) (t : Tag),
    (availableStepsQueries m l).count (r, t) ≤ (l.map Prod.fst).count r := by
  intro l
  induction l with
  | nil => intro r t; simp [availableStepsQueries]
  | cons hd lrest ih =>
    obtain ⟨run0, ttc0⟩ := hd
    intro r t
    cases ttc0 with
    | nil =>
      rw [availableStepsQueries]
      simp only [List.map_cons, List.count_cons, beq_iff_eq]
      have := ih r t
      split_ifs <;> omega
    | cons tg0 ttcrest =>
      obtain ⟨tg1, c1⟩ := tg0
      rw [availableStepsQueries]
      cases htr : m.Tensors run0 tg1 with
      | none =>
        simp only [htr, List.map_cons, List.count_cons, List.count_nil,
          beq_iff_eq]
        split_ifs with h1 h2 <;> try omega
        exact absurd (congrArg Prod.fst h1) h2
      | some evs =>
        simp only [htr, List.map_cons, List.count_cons, beq_iff_eq]
        have := ih r t
        split_ifs with h1 h2 <;> try omega
        exact absurd (congrArg Prod.fst h1) h2

theorem availableStepsQueries_stop {m : Multiplexer} {run : Run} {tg : Tag}
    {c : String} (ttcrest : List (Tag × String))
    (lrest : List (Run × List (Tag × String)))
    (h : m.Tensors run tg = none) :
    availableStepsQueries m ((run, (tg, c) :: ttcrest) :: lrest)
      = [(run, tg)] := by
  rw [availableStepsQueries, h]

/-! ### Claim theorems -/

/-- Claim C1, code evaluation at the failing input: `tags_impl` maps each
run to the bare list of its tag names — on a store whose run `colors`
holds tag `blue/pr_curves`, the value for `colors` is the tag-name list,
and the result is unchanged when the per-tag content (the carrier of the
tag's display metadata) changes, so the result cannot contain a
tag-to-TagMetadata mapping as the claim states. -/
theorem claim_C1_tags_impl_returns_bare_tag_names :
    tags_impl egStore = [("colors", ["blue/pr_curves"]), ("empty_run", [])] ∧
    tags_impl egStore = tags_impl egStoreContent2 :=
  ⟨rfl, rfl⟩

/-- Claim C2: if the store lookup fails for some requested run, then
`pr_curves_impl` fails as a whole with the error message naming a failing
run and the tag, and returns no mapping at all. -/
theorem claim_C2_lookup_failure_aborts (m : Multiplexer) (runs : List Run)
    (tag : Tag) (hfail : ∃ r, r ∈ runs ∧ m.Tensors r tag = none) :
    ∃ r, r ∈ runs ∧ m.Tensors r tag = none ∧
      pr_curves_impl m runs tag = .error (prCurvesErrorMessage r tag) ∧
      ∀ res, pr_curves_impl m runs tag ≠ .ok res := by
  obtain ⟨r, hr, hnone, hloop⟩ := prCurvesLoop_error runs hfail
  refine ⟨r, hr, hnone, hloop [], ?_⟩
  intro res h
  rw [pr_curves_impl, hloop []] at h
  cases h

/-- Claim C2 witness: on the sample store, requesting the good run
`colors` together with the unknown run `missing` aborts the whole call. -/
theorem claim_C2_witness :
    ∃ r, r ∈ (["colors", "missing"] : List Run) ∧
      egStore.Tensors r "blue/pr_curves" = none ∧
      pr_curves_impl egStore ["colors", "missing"] "blue/pr_curves"
        = .error (prCurvesErrorMessage r "blue/pr_curves") ∧
      ∀ res, pr_curves_impl egStore ["colors", "missing"] "blue/pr_curves"
        ≠ .ok res :=
  claim_C2_lookup_failure_aborts egStore ["colors", "missing"]
    "blue/pr_curves" ⟨"missing", by decide, rfl⟩

/-- Claim C3: a `/pr_curves` request with no `run` parameter or no `tag`
parameter gets a 400 plain-text response, the response does not depend on
the store at all, and no `Tensors` query is issued. -/
theorem claim_C3_validation_before_store (m m₂ : Multiplexer)
    (request : Request)
    (h : request.runArgs = [] ∨ request.tagArg = none) :
    (∃ msg, pr_curves_route m request = .badRequest msg) ∧
    pr_curves_route m request = pr_curves_route m₂ request ∧
    prCurvesRouteQueries m request = [] := by
  obtain ⟨runs, tagArg⟩ := request
  rcases h with h1 | h1
  · have : runs = [] := h1
    subst this
    exact ⟨⟨_, rfl⟩, rfl, rfl⟩
  · have : tagArg = none := h1
    subst this
    cases runs with
    | nil => exact ⟨⟨_, rfl⟩, rfl, rfl⟩
    | cons a as => exact ⟨⟨_, rfl⟩, rfl, rfl⟩

/-- Claim C3 witness: the request with both parameters absent. -/
theorem claim_C3_witness :
    (∃ msg, pr_curves_route egStore { runArgs := [], tagArg := none }
      = .badRequest msg) ∧
    pr_curves_route egStore { runArgs := [], tagArg := none }
      = pr_curves_route egStoreAltTensors { runArgs := [], tagArg := none } ∧
    prCurvesRouteQueries egStore { runArgs := [], tagArg := none } = [] :=
  claim_C3_validation_before_store egStore egStoreAltTensors
    { runArgs := [], tagArg := none } (Or.inl rfl)

/-- Claim C4: in a successful `pr_curves_impl` result every run's entry
list is exactly the store's event list converted in order by
`_process_tensor_event` (same length, same order), and the conversion
copies `wall_time` and `step` unchanged and takes `precision`/`recall`
as the payload rows at the reserved indices, elementwise. -/
theorem claim_C4_entry_conversion (m : Multiplexer) (runs : List Run)
    (tag : Tag) (res : List (Run × List CurveEntry))
    (h : pr_curves_impl m runs tag = .ok res) :
    (∀ run entries, (run, entries) ∈ res →
      ∃ evs, m.Tensors run tag = some evs ∧
        entries = evs.map _process_tensor_event ∧
        entries.length = evs.length) ∧
    ∀ e : TensorEvent,
      (_process_tensor_event e).wall_time = e.wall_time ∧
      (_process_tensor_event e).step = e.step ∧
      (_process_tensor_event e).precision
        = (make_ndarray e.tensor_proto).getD PRECISION_INDEX [] ∧
      (_process_tensor_event e).«recall»
        = (make_ndarray e.tensor_proto).getD RECALL_INDEX [] ∧
      ∀ i : Nat,
        (_process_tensor_event e).precision.getD i 0
          = ((make_ndarray e.tensor_proto).getD PRECISION_INDEX []).getD i 0 ∧
        (_process_tensor_event e).«recall».getD i 0
          = ((make_ndarray e.tensor_proto).getD RECALL_INDEX []).getD i 0 := by
  constructor
  · intro run entries hmem
    obtain ⟨evs, htr, hent⟩ :=
      prCurvesLoop_ok_mem runs [] res h (fun p hp => absurd hp (by simp))
        (run, entries) hmem
    have hent2 : entries = evs.map _process_tensor_event := hent
    exact ⟨evs, htr, hent2, by rw [hent2, List.length_map]⟩
  · intro e
    exact ⟨rfl, rfl, rfl, rfl, fun i => ⟨rfl, rfl⟩⟩

/-- Claim C4 witness: the sample store's run `colors` under its only
tag. -/
theorem claim_C4_witness :
    ∃ evs, egStore.Tensors "colors" "blue/pr_curves" = some evs ∧
      ([evA, evB].map _process_tensor_event) = evs.map _process_tensor_event ∧
      ([evA, evB].map _process_tensor_event).length = evs.length :=
  (claim_C4_entry_conversion egStore ["colors"] "blue/pr_curves"
      [("colors", [evA, evB].map _process_tensor_event)] rfl).1
    "colors" ([evA, evB].map _process_tensor_event) (by simp)

/-- Claim C5: `available_steps_impl` excludes every run whose tag mapping
is empty, and maps every run with at least one tag to the step values of
its first (store-order) tag's events — one step per event, in store
order, so N events give N steps. -/
theorem claim_C5_available_steps (m : Multiplexer)
    (res : List (Run × List Int))
    (hnd : (m.PluginRunToTagToContent.map Prod.fst).Nodup)
    (h : available_steps_impl m = some res) :
    (∀ run, (run, ([] : List (Tag × String))) ∈ m.PluginRunToTagToContent →
      run ∉ res.map Prod.fst) ∧
    (∀ run tg c rest, (run, (tg, c) :: rest) ∈ m.PluginRunToTagToContent →
      ∃ evs, m.Tensors run tg = some evs ∧
        (run, evs.map TensorEvent.step) ∈ res ∧
        (evs.map TensorEvent.step).length = evs.length) := by
  rw [available_steps_impl] at h
  constructor
  · intro run hrun hkey
    rcases availableStepsLoop_keys _ [] res h run hkey with h0 | ⟨ttc, hm, hne⟩
    · simp at h0
    · exact hne (nodupKeys_value_eq hnd hm hrun)
  · intro run tg c rest hmem
    obtain ⟨evs, htr, hres⟩ :=
      availableStepsLoop_mem _ [] res h (by simpa using hnd) run tg c rest hmem
    exact ⟨evs, htr, hres, List.length_map _ _⟩

/-- Claim C5 witness: on the sample store, `empty_run` (no tags) is
excluded and `colors` maps to its two events' steps. -/
theorem claim_C5_witness :
    "empty_run" ∉ ([("colors", [0, 1])] : List (Run × List Int)).map Prod.fst ∧
    ∃ evs, egStore.Tensors "colors" "blue/pr_curves" = some evs ∧
      ("colors", evs.map TensorEvent.step)
        ∈ ([("colors", [0, 1])] : List (Run × List Int)) ∧
      (evs.map TensorEvent.step).length = evs.length := by
  have h := claim_C5_available_steps egStore [("colors", [0, 1])]
    (by decide) rfl
  exact ⟨h.1 "empty_run" (by decide),
    h.2 "colors" "blue/pr_curves" "content1" [] (by decide)⟩

/-- Claim C6: `is_active` is false without a configured store, is true
exactly when some run has a nonempty relevant-tag set, and depends only
on the run-to-tags view, not on the event lookup. -/
theorem claim_C6_is_active :
    is_active none = false ∧
    (∀ m : Multiplexer, is_active (some m) = true ↔
      ∃ p, p ∈ m.PluginRunToTagToContent ∧ p.2 ≠ []) ∧
    (∀ m₁ m₂ : Multiplexer,
      m₁.PluginRunToTagToContent = m₂.PluginRunToTagToContent →
      is_active (some m₁) = is_active (some m₂)) := by
  refine ⟨rfl, ?_, ?_⟩
  · intro m
    rw [is_active, List.any_eq_true]
    constructor
    · rintro ⟨p, hp, hne⟩
      exact ⟨p, hp, by simpa using hne⟩
    · rintro ⟨p, hp, hne⟩
      exact ⟨p, hp, by simpa using hne⟩
  · intro m₁ m₂ heq
    rw [is_active, is_active, heq]

/-- Claim C6 witness: the sample store is active, and swapping out its
event lookup entirely does not change that. -/
theorem claim_C6_witness :
    is_active none = false ∧
    (is_active (some egStore) = true ↔
      ∃ p, p ∈ egStore.PluginRunToTagToContent ∧ p.2 ≠ []) ∧
    is_active (some egStore) = is_active (some egStoreAltTensors) := by
  obtain ⟨h1, h2, h3⟩ := claim_C6_is_active
  exact ⟨h1, h2 egStore, h3 egStore egStoreAltTensors rfl⟩

/-- Claim C7: `tags_impl` has exactly one key per run known to the store,
in store order (so every known run appears, including runs with an empty
tag mapping, which map to the empty list), and the empty store yields the
empty — valid, non-error — result. -/
theorem claim_C7_tags_impl_all_runs (m : Multiplexer) :
    (tags_impl m).map Prod.fst = m.PluginRunToTagToContent.map Prod.fst ∧
    (∀ run ttc, (run, ttc) ∈ m.PluginRunToTagToContent →
      (run, ttc.map Prod.fst) ∈ tags_impl m) ∧
    tags_impl emptyStore = [] := by
  refine ⟨?_, ?_, rfl⟩
  · rw [tags_impl, List.map_map]
    rfl
  · intro run ttc hmem
    exact List.mem_map_of_mem _ hmem

/-- Claim C7 witness: on the sample store the key list is preserved and
the tagless run `empty_run` appears with an empty value. -/
theorem claim_C7_witness :
    (tags_impl egStore).map Prod.fst
      = egStore.PluginRunToTagToContent.map Prod.fst ∧
    ("empty_run", ([] : List Tag)) ∈ tags_impl egStore := by
  have h := claim_C7_tags_impl_all_runs egStore
  exact ⟨h.1, h.2.1 "empty_run" [] (by decide)⟩

/-- Claim C8: every operation is a pure query — the result of each is
determined by the store state alone (two invocations against equal store
states agree) — and each call issues at most one `Tensors` query attempt
per store lookup: the query trace counts each (run, tag) pair at most as
often as the run occurs in the input (resp. in the store's run list), and
a failing query is the last query of the call (no retry). -/
theorem claim_C8_pure_single_query :
    (∀ m₁ m₂ : Multiplexer,
      m₁.PluginRunToTagToContent = m₂.PluginRunToTagToContent →
      m₁.Tensors = m₂.Tensors →
      (∀ runs tag, pr_curves_impl m₁ runs tag = pr_curves_impl m₂ runs tag) ∧
      tags_impl m₁ = tags_impl m₂ ∧
      available_steps_impl m₁ = available_steps_impl m₂ ∧
      is_active (some m₁) = is_active (some m₂)) ∧
    (∀ (m : Multiplexer) (tag : Tag) (runs : List Run) (r : Run) (t : Tag),
      (prCurvesQueries m tag runs).count (r, t) ≤ runs.count r) ∧
    (∀ (m : Multiplexer) (r : Run) (t : Tag),
      (availableStepsQueries m m.PluginRunToTagToContent).count (r, t)
        ≤ (m.PluginRunToTagToContent.map Prod.fst).count r) ∧
    (∀ (m : Multiplexer) (tag : Tag) (run : Run) (rest : List Run),
      m.Tensors run tag = none →
      prCurvesQueries m tag (run :: rest) = [(run, tag)]) := by
  refine ⟨?_, fun m tag runs r t => prCurvesQueries_count runs r t,
    fun m r t => availableStepsQueries_count _ r t,
    fun m tag run rest hf => prCurvesQueries_stop rest hf⟩
  intro m₁ m₂ h1 h2
  have hm : m₁ = m₂ := by
    cases m₁
    cases m₂
    congr 1
  rw [hm]
  exact ⟨fun runs tag => rfl, rfl, rfl, rfl⟩

/-- Claim C8 witness: concrete query-trace bounds and a stopped trace on
the sample store. -/
theorem claim_C8_witness :
    pr_curves_impl egStore ["colors"] "blue/pr_curves"
      = pr_curves_impl egStore ["colors"] "blue/pr_curves" ∧
    (prCurvesQueries egStore "blue/pr_curves" ["colors", "colors"]).count
        ("colors", "blue/pr_curves")
      ≤ (["colors", "colors"] : List Run).count "colors" ∧
    (availableStepsQueries egStore egStore.PluginRunToTagToContent).count
        ("colors", "blue/pr_curves")
      ≤ (egStore.PluginRunToTagToContent.map Prod.fst).count "colors" ∧
    prCurvesQueries egStore "t" ["r", "x"] = [("r", "t")] := by
  have h := claim_C8_pure_single_query
  exact ⟨(h.1 egStore egStore rfl rfl).1 ["colors"] "blue/pr_curves",
    h.2.1 egStore "blue/pr_curves" ["colors", "colors"] "colors"
      "blue/pr_curves",
    h.2.2.1 egStore "colors" "blue/pr_curves",
    h.2.2.2 egStore "t" "r" ["x"] rfl⟩

/-- Claim C9: the `/pr_curves` route validates `run` before `tag`: any
request with an empty run list — in particular one where both parameters
are absent — gets the missing-runs message, and the missing-tag message
can only arise when at least one run was supplied. -/
theorem claim_C9_run_validated_before_tag (m : Multiplexer)
    (request : Request) :
    (request.runArgs = [] →
      pr_curves_route m request
        = .badRequest "No runs provided when fetching PR curve data") ∧
    (pr_curves_route m request
        = .badRequest "No tag provided when fetching PR curve data" →
      request.runArgs ≠ []) := by
  obtain ⟨runs, tagArg⟩ := request
  constructor
  · intro h1
    have : runs = [] := h1
    subst this
    rfl
  · intro h
    show runs ≠ []
    intro hruns
    subst hruns
    have h' := PrCurvesResponse.badRequest.inj h
    exact absurd h' (by decide)

/-- Claim C9 witness: the both-absent request yields the missing-runs
message, and a request that got the missing-tag message had a run. -/
theorem claim_C9_witness :
    pr_curves_route egStore { runArgs := [], tagArg := none }
      = .badRequest "No runs provided when fetching PR curve data" ∧
    (Request.mk ["r"] none).runArgs ≠ [] := by
  refine ⟨(claim_C9_run_validated_before_tag egStore
      { runArgs := [], tagArg := none }).1 rfl, ?_⟩
  exact (claim_C9_run_validated_before_tag egStore
      { runArgs := ["r"], tagArg := none }).2 rfl

/-- Claim C10: when every requested lookup succeeds, `pr_curves_impl`
succeeds and its key set is exactly the set of distinct requested run
names — each key appears once, no unrequested key appears, and each key's
value is determined by the store lookup (so duplicate occurrences of a
run overwrite with an equal value). -/
theorem claim_C10_keys_are_requested_runs (m : Multiplexer)
    (runs : List Run) (tag : Tag)
    (hok : ∀ r, r ∈ runs → m.Tensors r tag ≠ none) :
    ∃ res, pr_curves_impl m runs tag = .ok res ∧
      (∀ r, r ∈ res.map Prod.fst ↔ r ∈ runs) ∧
      (res.map Prod.fst).Nodup ∧
      (∀ r entries, (r, entries) ∈ res →
        ∃ evs, m.Tensors r tag = some evs ∧
          entries = evs.map _process_tensor_event) := by
  obtain ⟨res, hres⟩ := prCurvesLoop_ok_total runs hok []
  refine ⟨res, hres, ?_, ?_, ?_⟩
  · intro r
    have := prCurvesLoop_ok_keys runs [] res hres r
    simpa using this
  · exact prCurvesLoop_ok_nodup runs [] res hres (by simp)
  · intro r entries hmem
    exact prCurvesLoop_ok_mem runs [] res hres
      (fun p hp => absurd hp (by simp)) (r, entries) hmem

/-- Claim C10 witness: requesting `colors` twice yields a single key. -/
theorem claim_C10_witness :
    ∃ res, pr_curves_impl egStore ["colors", "colors"] "blue/pr_curves"
        = .ok res ∧
      (∀ r, r ∈ res.map Prod.fst ↔ r ∈ (["colors", "colors"] : List Run)) ∧
      (res.map Prod.fst).Nodup ∧
      (∀ r entries, (r, entries) ∈ res →
        ∃ evs, egStore.Tensors r "blue/pr_curves" = some evs ∧
          entries = evs.map _process_tensor_event) :=
  claim_C10_keys_are_requested_runs egStore ["colors", "colors"]
    "blue/pr_curves" (by decide)

end PrCurves
